import Mathlib

/-!
A shallow embedding of the PySwarms single-objective PSO engine described by
the repository specification: swarm state, global and ring topologies, the
bounds handler, the stochastic velocity/position update, the batch objective
evaluator, and the optimization controller, together with proofs of the
specified properties.  The repository snapshot ships only the tutorial
notebook, so the engine itself is reconstructed from the specification text;
every definition notes the spec section it follows.
-/

namespace PSO

/-- Decidable equality on the rationals through the normalized numerator
and denominator fields. -/
def decEqQ : DecidableEq ℚ := fun a b =>
  if h : a.num = b.num ∧ a.den = b.den then .isTrue (Rat.ext h.1 h.2)
  else .isFalse (fun hh => h (by rw [hh]; exact ⟨rfl, rfl⟩))

instance (priority := 2000) : DecidableEq ℚ := decEqQ

instance {ε α : Type} [DecidableEq ε] [DecidableEq α] : DecidableEq (Except ε α) := fun x y =>
  match x, y with
  | .error u, .error v =>
    if h : u = v then .isTrue (by rw [h]) else .isFalse (fun hh => h (Except.error.inj hh))
  | .ok u, .ok v =>
    if h : u = v then .isTrue (by rw [h]) else .isFalse (fun hh => h (Except.ok.inj hh))
  | .error _, .ok _ => .isFalse (fun hh => Except.noConfusion hh)
  | .ok _, .error _ => .isFalse (fun hh => Except.noConfusion hh)

/-- Modelled from the spec: the missing engine stores costs as machine
floats; the model uses exact rationals for finite values and a single marker
for the non-finite values (NaN or Inf), which spec section 7 orders as worse
than every finite cost and excludes from best-tracking comparisons. -/
inductive Cost where
  | finite (q : ℚ)
  | nonfinite
deriving DecidableEq

/-- Strict comparison on costs: finite costs compare as rationals, a finite
cost is strictly better than a non-finite one, and a non-finite cost is
never strictly better than anything (spec 7). -/
def Cost.isLt : Cost → Cost → Bool
  | .finite a, .finite b => decide (a < b)
  | .finite _, .nonfinite => true
  | .nonfinite, _ => false

/-- Non-strict cost order: a is at least as good as b. -/
def Cost.le (a b : Cost) : Bool := !(Cost.isLt b a)

/-- Modelled from the spec: the missing engine draws all randomness from one
pseudo-random stream seeded once at optimizer construction (spec 4.4).  The
stream is modelled by a linear congruential generator with modulus 2^31. -/
def lcgNext (s : ℕ) : ℕ := (1103515245 * s + 12345) % 2147483648

/-- State of the random stream after t steps from the seed. -/
def lcgState (seed : ℕ) : ℕ → ℕ
  | 0 => seed % 2147483648
  | t + 1 => lcgNext (lcgState seed t)

/-- Value drawn at position t of the single random stream: a rational in
the interval [0, 1), standing for a Uniform(0,1) draw (spec 4.4). -/
def rand01 (seed t : ℕ) : ℚ := mkRat (lcgState seed (t + 1)) 2147483648

/-- One particle (spec 3): position, velocity, and the personal-best pair.
A fresh particle carries the non-finite sentinel as personal-best cost, so
the first finite evaluation always installs a personal best. -/
structure Particle where
  position : List ℚ
  velocity : List ℚ
  pbestPos : List ℚ
  pbestCost : Cost
deriving DecidableEq

/-- Default particle used by positional lookups. -/
def dfltParticle : Particle := ⟨[], [], [], Cost.nonfinite⟩

/-- Hard clip of one coordinate to the interval from lo to hi (spec 4.3). -/
def clipScalar (lo hi x : ℚ) : ℚ := max lo (min hi x)

/-- Symmetric clamp of one velocity coordinate to [-vmax, vmax] (spec 4.4). -/
def clampScalar (vmax v : ℚ) : ℚ := max (-vmax) (min vmax v)

/-- Bounds Handler (spec 4.3): when bounds are present every coordinate is
clamped to the box; when absent the position passes through unchanged. -/
def clipVec : Option (List ℚ × List ℚ) → List ℚ → List ℚ
  | none, x => x
  | some lohi, x =>
    (List.range x.length).map
      (fun j => clipScalar (lohi.1.getD j 0) (lohi.2.getD j 0) (x.getD j 0))

/-- The two swarm topologies (spec 4.2), fixed at construction. -/
inductive Topo where
  | globalBest
  | ringLocal
deriving DecidableEq

/-- Index distance on the circular ring of n particles. -/
def wrapDist (n i j : ℕ) : ℕ :=
  min (max i j - min i j) (n - (max i j - min i j))

/-- Modelled from the spec: nearness order used to pick the k nearest other
particles on the ring (spec 4.2).  Minkowski orders p = 1 and p = 2 on the
ring induce the same nearness ordering, because ring distance is monotone in
the index wrap distance, so the model orders by wrap distance, breaking
distance ties by the lower index. -/
def ringNearer (n i a b : ℕ) : Bool :=
  decide (wrapDist n i a < wrapDist n i b) ||
    (decide (wrapDist n i a = wrapDist n i b) && decide (a < b))

/-- Number of other particles strictly nearer to i than j is (in the tie
broken nearness order); j is among the k nearest others exactly when its
rank is below k. -/
def ringRank (n i j : ℕ) : ℕ :=
  ((List.range n).filter (fun j2 => decide (j2 ≠ i) && ringNearer n i j2 j)).length

/-- Ring neighborhood (spec 4.2): particle i together with its k nearest
other particles by index distance, listed in ascending index order. -/
def ringNeighbors (n k i : ℕ) : List ℕ :=
  (List.range n).filter (fun j => decide (j = i) || decide (ringRank n i j < k))

/-- Personal-best cost of the particle at a given index. -/
def pbestCostAt (ps : List Particle) (i : ℕ) : Cost :=
  (ps.getD i dfltParticle).pbestCost

/-- Scan of the candidate indices keeping the incumbent unless a strictly
better personal-best cost appears, so ties keep the earlier candidate. -/
def bestOverAux (ps : List Particle) : ℕ → List ℕ → ℕ
  | b, [] => b
  | b, i :: rest =>
    bestOverAux ps (if (pbestCostAt ps i).isLt (pbestCostAt ps b) then i else b) rest

/-- Index of the particle with minimum personal-best cost among the given
candidates; with an ascending candidate list ties go to the lowest index
(spec 4.2 tie-break rule). -/
def bestOver (ps : List Particle) : List ℕ → ℕ
  | [] => 0
  | i :: rest => bestOverAux ps i rest

/-- Global topology best index (spec 4.2). -/
def globalBestFor (ps : List Particle) : ℕ := bestOver ps (List.range ps.length)

/-- Ring topology best index for particle i (spec 4.2). -/
def localBestFor (ps : List Particle) (k i : ℕ) : ℕ :=
  bestOver ps (ringNeighbors ps.length k i)

/-- Topology contract best_for (spec 4.2): the (cost, position) pair of the
best reachable neighbor, read off the personal-best fields. -/
def bestForPair (ps : List Particle) (b : ℕ) : Cost × List ℚ :=
  (pbestCostAt ps b, (ps.getD b dfltParticle).pbestPos)

/-- Validated optimizer (spec 6 construction surface). -/
structure Optimizer where
  n : ℕ
  d : ℕ
  c1 : ℚ
  c2 : ℚ
  w : ℚ
  topology : Topo
  k : ℕ
  bounds : Option (List ℚ × List ℚ)
  vclamp : Option (List ℚ)
  seed : ℕ
deriving DecidableEq

/-- Raw construction input (spec 3 SwarmConfig and SearchSpace): options is
the plain key-value mapping holding c1, c2, w and, for the ring topology,
k and p. -/
structure PsoConfig where
  n_particles : ℕ
  dimensions : ℕ
  options : List (String × ℚ)
  topology : Topo
  bounds : Option (List ℚ × List ℚ)
  velocity_clamp : Option (List ℚ)
  rng_seed : ℕ
deriving DecidableEq

/-- Error taxonomy (spec 7): eager configuration errors and the fatal
runtime shape error carrying the offending iteration index. -/
inductive PsoError where
  | configError (msg : String)
  | shapeError (iter : ℕ)
deriving DecidableEq

/-- Bounds validation (spec 4.3): both bound vectors match the dimension
count and every lower coordinate is strictly below its upper partner. -/
def boundsOk (d : ℕ) : Option (List ℚ × List ℚ) → Bool
  | none => true
  | some lohi =>
    decide (lohi.1.length = d) && decide (lohi.2.length = d) &&
      (List.range d).all (fun j => decide (lohi.1.getD j 0 < lohi.2.getD j 0))

/-- Velocity-clamp validation: the clamp vector matches the dimensions. -/
def vclampOk (d : ℕ) : Option (List ℚ) → Bool
  | none => true
  | some vm => decide (vm.length = d)

/-- Reads a non-negative integral rational as a natural number. -/
def qToNat (q : ℚ) : Option ℕ :=
  if q.den = 1 ∧ 0 ≤ q.num then some q.num.toNat else none

/-- Modelled from the spec: eager configuration validation of the missing
engine at construction time (spec 4.1, 4.3, 7): positive population and
dimension counts, required option keys c1, c2, w present with non-negative
values, ring keys k and p present and in domain when the local topology is
selected, and well-formed bounds and velocity clamp. -/
def mkOptimizer (cfg : PsoConfig) : Except PsoError Optimizer :=
  if cfg.n_particles = 0 then .error (.configError ("n_particles")) else
  if cfg.dimensions = 0 then .error (.configError ("dimensions")) else
  match cfg.options.lookup ("c1"), cfg.options.lookup ("c2"), cfg.options.lookup ("w") with
  | some c1, some c2, some w =>
    if c1 < 0 ∨ c2 < 0 ∨ w < 0 then .error (.configError ("negative option")) else
    if boundsOk cfg.dimensions cfg.bounds = false then .error (.configError ("bounds")) else
    if vclampOk cfg.dimensions cfg.velocity_clamp = false then
      .error (.configError ("velocity clamp")) else
    match cfg.topology with
    | .globalBest =>
      .ok { n := cfg.n_particles, d := cfg.dimensions, c1 := c1, c2 := c2, w := w,
            topology := .globalBest, k := 0, bounds := cfg.bounds,
            vclamp := cfg.velocity_clamp, seed := cfg.rng_seed }
    | .ringLocal =>
      match cfg.options.lookup ("k"), cfg.options.lookup ("p") with
      | some kq, some pq =>
        match qToNat kq, qToNat pq with
        | some k, some p =>
          if 1 ≤ k ∧ k < cfg.n_particles ∧ (p = 1 ∨ p = 2) then
            .ok { n := cfg.n_particles, d := cfg.dimensions, c1 := c1, c2 := c2, w := w,
                  topology := .ringLocal, k := k, bounds := cfg.bounds,
                  vclamp := cfg.velocity_clamp, seed := cfg.rng_seed }
          else .error (.configError ("k p domain"))
        | _, _ => .error (.configError ("k p not integral"))
      | _, _ => .error (.configError ("missing ring option"))
  | _, _, _ => .error (.configError ("missing required option"))

/-- Running-loop state (spec 4.6), with the best-ever pair tracked
independently of the final swarm state and a ghost log of the evaluator
calls (argument tuple and full position matrix of each call). -/
structure LoopState (A : Type) where
  particles : List Particle
  ctr : ℕ
  history : List Cost
  bestCost : Cost
  bestPos : List ℚ
  iter : ℕ
  calls : List (A × List (List ℚ))

/-- Full batch of positions handed to the evaluator, one row per particle. -/
def posMatrix (ps : List Particle) : List (List ℚ) := ps.map (fun p => p.position)

/-- Swarm State update_personal_best for one particle (spec 4.1): replace
both personal-best fields exactly when the new cost is strictly better;
ties and worse or non-finite costs keep the old pair. -/
def updatePBest (p : Particle) (c : Cost) : Particle :=
  if c.isLt p.pbestCost then { p with pbestCost := c, pbestPos := p.position } else p

/-- One dimension of the stochastic velocity update (spec 4.4). -/
def velDim (w c1 c2 r1 r2 v x pb nb : ℚ) : ℚ :=
  w * v + c1 * r1 * (pb - x) + c2 * r2 * (nb - x)

/-- Velocity/Position Updater for one particle (spec 4.4): per dimension,
two fresh draws from the single stream feed the inertia, cognitive and
social terms; the velocity is clamped only when a velocity-clamp is
configured; the moved position is then clipped by the Bounds Handler. -/
def moveParticle (o : Optimizer) (ctr i : ℕ) (p : Particle) (nb : List ℚ) : Particle :=
  let base := ctr + 2 * o.d * i
  let rawVel := (List.range o.d).map (fun j =>
    velDim o.w o.c1 o.c2 (rand01 o.seed (base + 2 * j)) (rand01 o.seed (base + 2 * j + 1))
      (p.velocity.getD j 0) (p.position.getD j 0) (p.pbestPos.getD j 0) (nb.getD j 0))
  let vel := match o.vclamp with
    | none => rawVel
    | some vm => (List.range o.d).map (fun j => clampScalar (vm.getD j 0) (rawVel.getD j 0))
  let pos := clipVec o.bounds ((List.range o.d).map (fun j => p.position.getD j 0 + vel.getD j 0))
  { p with position := pos, velocity := vel }

/-- Neighborhood-best position for particle i under the topology fixed at
construction (spec 4.2). -/
def nbPosFor (o : Optimizer) (ps : List Particle) (i : ℕ) : List ℚ :=
  match o.topology with
  | .globalBest => (bestForPair ps (globalBestFor ps)).2
  | .ringLocal => (bestForPair ps (localBestFor ps o.k i)).2

/-- One iteration of the Running loop after a well-shaped evaluation
(spec 4.6): update personal bests from the fresh costs, refresh the tracked
best-ever pair, move and clip every particle, and append the current best
cost to the history; the stream counter advances by exactly the two draws
per particle per dimension the updater consumed. -/
def stepOk {A : Type} (o : Optimizer) (st : LoopState A) (costs : List Cost) : LoopState A :=
  let ps1 := (st.particles.zip costs).map (fun pc => updatePBest pc.1 pc.2)
  let b := globalBestFor ps1
  let cand := pbestCostAt ps1 b
  let newBestCost := if cand.isLt st.bestCost then cand else st.bestCost
  let newBestPos := if cand.isLt st.bestCost then (ps1.getD b dfltParticle).pbestPos else st.bestPos
  let ps2 := (List.range ps1.length).map
    (fun i => moveParticle o st.ctr i (ps1.getD i dfltParticle) (nbPosFor o ps1 i))
  { particles := ps2, ctr := st.ctr + 2 * o.d * o.n,
    history := st.history ++ [newBestCost], bestCost := newBestCost,
    bestPos := newBestPos, iter := st.iter + 1, calls := st.calls }

/-- Objective Evaluator plus one full iteration (spec 4.5, 4.6): the user
function is applied exactly once, to the full position matrix, with the
fixed extra arguments captured at the optimize call; a returned vector
whose length differs from the particle count is a fatal ShapeError carrying
the current iteration index. -/
def stepIter {A : Type} (o : Optimizer) (f : A → List (List ℚ) → List Cost) (args : A)
    (st : LoopState A) : Except PsoError (LoopState A) :=
  let m := posMatrix st.particles
  let costs := f args m
  if costs.length = st.particles.length then
    .ok (stepOk o { st with calls := st.calls ++ [(args, m)] } costs)
  else .error (.shapeError st.iter)

/-- The Running state machine (spec 4.6): exactly the requested number of
iterations, aborting immediately when an iteration fails. -/
def runLoop {A : Type} (o : Optimizer) (f : A → List (List ℚ) → List Cost) (args : A) :
    ℕ → LoopState A → Except PsoError (LoopState A)
  | 0, st => .ok st
  | t + 1, st =>
    match stepIter o f args st with
    | .error e => .error e
    | .ok st2 => runLoop o f args t st2

/-- Modelled from the spec: swarm seeding of the missing engine (spec 4.1):
positions drawn uniformly inside the bounds when present, otherwise from
the default symmetric range [-1, 1]; velocities zero-initialized; the
personal best starts at the non-finite sentinel so the first finite
evaluation always installs it. -/
def initParticle (o : Optimizer) (i : ℕ) : Particle :=
  let pos := (List.range o.d).map (fun j =>
    let r := rand01 o.seed (o.d * i + j)
    match o.bounds with
    | some lohi => lohi.1.getD j 0 + r * (lohi.2.getD j 0 - lohi.1.getD j 0)
    | none => -1 + 2 * r)
  { position := pos, velocity := List.replicate o.d 0, pbestPos := pos,
    pbestCost := .nonfinite }

/-- Freshly seeded loop state: the seeding consumed the first d * n draws
of the stream, the history and call log start empty. -/
def initState {A : Type} (o : Optimizer) : LoopState A :=
  { particles := (List.range o.n).map (initParticle o), ctr := o.d * o.n,
    history := [], bestCost := .nonfinite, bestPos := [], iter := 0, calls := [] }

/-- Result of a terminated run (spec 3): best cost and position ever
observed plus the per-iteration history. -/
structure OptimizationResult where
  final_cost : Cost
  final_position : List ℚ
  cost_history : List Cost
deriving DecidableEq

/-- Controller optimize (spec 4.6, 6): run exactly iters iterations from a
freshly seeded swarm and return the best pair ever observed together with
the history; fatal errors surface with no result. -/
def optimize {A : Type} (o : Optimizer) (f : A → List (List ℚ) → List Cost) (args : A)
    (iters : ℕ) : Except PsoError OptimizationResult :=
  match runLoop o f args iters (initState o) with
  | .error e => .error e
  | .ok st =>
    .ok { final_cost := st.bestCost, final_position := st.bestPos, cost_history := st.history }

/-- Construction followed by one optimize call (spec 6 surface). -/
def runPso {A : Type} (cfg : PsoConfig) (f : A → List (List ℚ) → List Cost) (args : A)
    (iters : ℕ) : Except PsoError OptimizationResult :=
  match mkOptimizer cfg with
  | .error e => .error e
  | .ok o => optimize o f args iters

/-- Loop state reached after t completed iterations. -/
def statesAfter {A : Type} (o : Optimizer) (f : A → List (List ℚ) → List Cost) (args : A)
    (t : ℕ) : Except PsoError (LoopState A) :=
  runLoop o f args t (initState o)

/-- Better of two costs, left biased on ties. -/
def minC (a b : Cost) : Cost := if a.isLt b then a else b

/-- Minimum of a cost list, with the non-finite top element as the value on
the empty list. -/
def minCost (l : List Cost) : Cost := l.foldr minC .nonfinite

/-- Value of a successful computation, with a fallback for errors. -/
def okD {ε α : Type} : Except ε α → α → α
  | .ok a, _ => a
  | .error _, dflt => dflt

/-- Default result used by positional access to run outcomes. -/
def dfltResult : OptimizationResult := ⟨.nonfinite, [], []⟩

/-- Default loop state used by positional access to run states. -/
def dfltState {A : Type} : LoopState A := ⟨[], 0, [], .nonfinite, [], 0, []⟩

/-- Default optimizer used by positional access to construction outcomes. -/
def dfltOptimizer : Optimizer := ⟨1, 1, 0, 0, 0, .globalBest, 0, none, none, 0⟩

theorem Cost.isLt_irrefl (a : Cost) : Cost.isLt a a = false := by
  cases a <;> simp [Cost.isLt]

theorem Cost.isLt_asymm {a b : Cost} (h : Cost.isLt a b = true) : Cost.isLt b a = false := by
  cases a <;> cases b <;> simp_all [Cost.isLt] <;> linarith

theorem Cost.isLt_trans {a b c : Cost} (h1 : Cost.isLt a b = true)
    (h2 : Cost.isLt b c = true) : Cost.isLt a c = true := by
  cases a <;> cases b <;> cases c <;> simp_all [Cost.isLt] <;> linarith

theorem Cost.isLt_false_trans {a b c : Cost} (h1 : Cost.isLt a b = false)
    (h2 : Cost.isLt b c = false) : Cost.isLt a c = false := by
  cases a <;> cases b <;> cases c <;> simp_all [Cost.isLt] <;> linarith

theorem Cost.eq_of_not_lt {a b : Cost} (h1 : Cost.isLt a b = false)
    (h2 : Cost.isLt b a = false) : a = b := by
  cases a <;> cases b <;> simp_all [Cost.isLt]
  linarith

theorem minC_nonfinite_right (c : Cost) : minC c .nonfinite = c := by
  cases c <;> simp [minC, Cost.isLt]

theorem minC_assoc (a b c : Cost) : minC (minC a b) c = minC a (minC b c) := by
  cases hab : Cost.isLt a b <;> cases hbc : Cost.isLt b c
  · have hac := Cost.isLt_false_trans hab hbc
    simp [minC, hab, hbc, hac]
  · simp [minC, hab, hbc]
  · simp [minC, hab, hbc]
  · have hac := Cost.isLt_trans hab hbc
    simp [minC, hab, hbc, hac]

theorem foldr_minC (x : Cost) (l : List Cost) :
    l.foldr minC x = minC (minCost l) x := by
  induction l with
  | nil => cases x <;> rfl
  | cons c l ih => rw [List.foldr_cons, ih, ← minC_assoc]; rfl

theorem minCost_append_one (l : List Cost) (c : Cost) :
    minCost (l ++ [c]) = minC (minCost l) c := by
  have h1 : minCost (l ++ [c]) = l.foldr minC (minC c .nonfinite) := by
    rw [minCost, List.foldr_append]; rfl
  rw [h1, minC_nonfinite_right, foldr_minC]

/-- The cost a step keeps as better of candidate and incumbent never loses
to the incumbent. -/
theorem isLt_minC_right (a b : Cost) : Cost.isLt b (minC a b) = false := by
  cases h : Cost.isLt a b
  · simp [minC, h, Cost.isLt_irrefl]
  · simp [minC, h, Cost.isLt_asymm h]

/-- The step computes its refreshed best-ever cost as the better of the
fresh swarm best and the incumbent best-ever cost. -/
theorem stepOk_bestCost {A : Type} (o : Optimizer) (st : LoopState A) (costs : List Cost) :
    (stepOk o st costs).bestCost =
      minC (pbestCostAt ((st.particles.zip costs).map (fun pc => updatePBest pc.1 pc.2))
        (globalBestFor ((st.particles.zip costs).map (fun pc => updatePBest pc.1 pc.2))))
        st.bestCost := rfl

/-- The refreshed best-ever cost of a step never regresses. -/
theorem stepOk_bestCost_le {A : Type} (o : Optimizer) (st : LoopState A) (costs : List Cost) :
    Cost.isLt st.bestCost (stepOk o st costs).bestCost = false := by
  rw [stepOk_bestCost]
  exact isLt_minC_right _ _

/-- The step appends exactly its refreshed best-ever cost to the history. -/
theorem stepOk_history {A : Type} (o : Optimizer) (st : LoopState A) (costs : List Cost) :
    (stepOk o st costs).history = st.history ++ [(stepOk o st costs).bestCost] := rfl

/-- Key invariant of the Running loop: the tracked best-ever cost is the
minimum of the history written so far. -/
theorem stepOk_minCost {A : Type} (o : Optimizer) (st : LoopState A) (costs : List Cost)
    (h : minCost st.history = st.bestCost) :
    minCost (stepOk o st costs).history = (stepOk o st costs).bestCost := by
  rw [stepOk_history, minCost_append_one, h, minC, stepOk_bestCost_le]
  simp

/-- Case split on one iteration: either the evaluation is well shaped and
the iteration is a stepOk on the state with the logged call, or it fails
with the shape error at the current iteration index. -/
theorem stepIter_cases {A : Type} (o : Optimizer) (f : A → List (List ℚ) → List Cost)
    (args : A) (st : LoopState A) :
    ((f args (posMatrix st.particles)).length = st.particles.length ∧
      stepIter o f args st =
        .ok (stepOk o { st with calls := st.calls ++ [(args, posMatrix st.particles)] }
          (f args (posMatrix st.particles)))) ∨
    ((f args (posMatrix st.particles)).length ≠ st.particles.length ∧
      stepIter o f args st = .error (.shapeError st.iter)) := by
  by_cases hc : (f args (posMatrix st.particles)).length = st.particles.length
  · left
    exact ⟨hc, by rw [stepIter]; simp [hc]⟩
  · right
    exact ⟨hc, by rw [stepIter]; simp [hc]⟩

theorem runLoop_minCost {A : Type} (o : Optimizer) (f : A → List (List ℚ) → List Cost)
    (args : A) : ∀ (t : ℕ) (st st2 : LoopState A), minCost st.history = st.bestCost →
    runLoop o f args t st = .ok st2 → minCost st2.history = st2.bestCost := by
  intro t
  induction t with
  | zero => intro st st2 h hr; cases hr; exact h
  | succ t ih =>
    intro st st2 h hr
    rw [runLoop] at hr
    rcases stepIter_cases o f args st with ⟨_, hs⟩ | ⟨_, hs⟩
    · rw [hs] at hr
      have hr2 : runLoop o f args t
          (stepOk o { st with calls := st.calls ++ [(args, posMatrix st.particles)] }
            (f args (posMatrix st.particles))) = .ok st2 := hr
      exact ih _ _ (stepOk_minCost o
        { st with calls := st.calls ++ [(args, posMatrix st.particles)] }
        (f args (posMatrix st.particles)) h) hr2
    · rw [hs] at hr
      cases hr

theorem initState_minCost {A : Type} (o : Optimizer) :
    minCost (initState o : LoopState A).history = (initState o : LoopState A).bestCost := rfl

/-- C1. For every valid configuration and every run of optimize, the
final_cost returned equals the minimum element of cost_history: the engine
never reports a worse value than an earlier iteration produced. -/
theorem c1_final_cost_eq_min_history {A : Type} (cfg : PsoConfig)
    (f : A → List (List ℚ) → List Cost) (args : A) (iters : ℕ)
    (h : (runPso cfg f args iters).isOk = true) :
    (okD (runPso cfg f args iters) dfltResult).final_cost =
      minCost (okD (runPso cfg f args iters) dfltResult).cost_history := by
  rw [runPso] at h ⊢
  cases hm : mkOptimizer cfg with
  | error e => rw [hm] at h; simp [Except.isOk, Except.toBool] at h
  | ok o =>
    rw [hm] at h
    have h2 : (optimize o f args iters).isOk = true := h
    show (okD (optimize o f args iters) dfltResult).final_cost =
      minCost (okD (optimize o f args iters) dfltResult).cost_history
    rw [optimize] at h2 ⊢
    cases hr : runLoop o f args iters (initState o : LoopState A) with
    | error e => rw [hr] at h2; simp [Except.isOk, Except.toBool] at h2
    | ok st =>
      have hmin := runLoop_minCost o f args iters (initState o) st (initState_minCost o) hr
      simpa [okD] using hmin.symm

/-- Shared concrete fixture: the notebook's hyperparameters c1 = 0.5,
c2 = 0.3, w = 0.9 on a small global-topology swarm without bounds. -/
def cfgW : PsoConfig :=
  { n_particles := 2, dimensions := 1,
    options := [("c1", mkRat 1 2), ("c2", mkRat 3 10), ("w", mkRat 9 10)],
    topology := .globalBest, bounds := none, velocity_clamp := none, rng_seed := 42 }

/-- Shared concrete fixture: the sphere objective of the notebook, one cost
per row of the position matrix. -/
def sphObj : Unit → List (List ℚ) → List Cost := fun _ m =>
  m.map (fun row => Cost.finite (row.foldr (fun x acc => x * x + acc) 0))

theorem c1_final_cost_eq_min_history_witness :
    (runPso cfgW sphObj () 2).isOk = true ∧
      (okD (runPso cfgW sphObj () 2) dfltResult).final_cost =
        minCost (okD (runPso cfgW sphObj () 2) dfltResult).cost_history :=
  ⟨by with_unfolding_all decide,
    c1_final_cost_eq_min_history cfgW sphObj () 2 (by with_unfolding_all decide)⟩

theorem getD_map_range {α : Type} (n i : ℕ) (f : ℕ → α) (d : α) :
    ((List.range n).map f).getD i d = if i < n then f i else d := by
  by_cases h : i < n
  · rw [if_pos h]
    rw [List.getD_eq_getElem?_getD, List.getElem?_map, List.getElem?_range h]
    rfl
  · rw [if_neg h]
    rw [List.getD_eq_getElem?_getD, List.getElem?_eq_none]
    · rfl
    · simpa using Nat.le_of_not_lt h

/-- Movement never touches the personal-best cost field. -/
theorem moveParticle_pbestCost (o : Optimizer) (ctr i : ℕ) (p : Particle) (nb : List ℚ) :
    (moveParticle o ctr i p nb).pbestCost = p.pbestCost := rfl

/-- Movement never touches the personal-best position field. -/
theorem moveParticle_pbestPos (o : Optimizer) (ctr i : ℕ) (p : Particle) (nb : List ℚ) :
    (moveParticle o ctr i p nb).pbestPos = p.pbestPos := rfl

/-- Positional form of the personal-best update pass of a step. -/
theorem getD_updatePBest_zip (ps : List Particle) (costs : List Cost)
    (h : costs.length = ps.length) : ∀ i : ℕ,
    ((ps.zip costs).map (fun pc => updatePBest pc.1 pc.2)).getD i dfltParticle =
      if i < ps.length then updatePBest (ps.getD i dfltParticle) (costs.getD i Cost.nonfinite)
      else dfltParticle := by
  induction ps generalizing costs with
  | nil => intro i; simp
  | cons p ps ih =>
    cases costs with
    | nil => simp at h
    | cons c cs =>
      intro i
      cases i with
      | zero => simp
      | succ i =>
        have h2 : cs.length = ps.length := by simpa using h
        simp only [List.zip_cons_cons, List.map_cons, List.getD_cons_succ, ih cs h2 i,
          List.length_cons]
        by_cases hi : i < ps.length
        · rw [if_pos hi, if_pos (by omega)]
        · rw [if_neg hi, if_neg (by omega)]

/-- Sizes agree through the personal-best pass. -/
theorem length_updatePBest_zip (ps : List Particle) (costs : List Cost)
    (h : costs.length = ps.length) :
    ((ps.zip costs).map (fun pc => updatePBest pc.1 pc.2)).length = ps.length := by
  simp [List.length_zip, h]

/-- The updated personal-best cost is the better of the fresh cost and the
old personal best. -/
theorem updatePBest_pbestCost (p : Particle) (c : Cost) :
    (updatePBest p c).pbestCost = minC c p.pbestCost := by
  cases hc : Cost.isLt c p.pbestCost <;> simp [updatePBest, minC, hc]

/-- Positional personal-best cost after one well-shaped iteration: the
particle count is preserved and every slot holds the better of its fresh
cost and its old personal best. -/
theorem stepOk_pbestCostAt {A : Type} (o : Optimizer) (st : LoopState A) (costs : List Cost)
    (h : costs.length = st.particles.length) (i : ℕ) :
    pbestCostAt (stepOk o st costs).particles i =
      if i < st.particles.length
      then minC (costs.getD i .nonfinite) (pbestCostAt st.particles i)
      else Cost.nonfinite := by
  have hl := length_updatePBest_zip st.particles costs h
  show pbestCostAt ((List.range ((st.particles.zip costs).map
      (fun pc => updatePBest pc.1 pc.2)).length).map
      (fun i => moveParticle o st.ctr i (((st.particles.zip costs).map
        (fun pc => updatePBest pc.1 pc.2)).getD i dfltParticle)
        (nbPosFor o ((st.particles.zip costs).map (fun pc => updatePBest pc.1 pc.2)) i))) i = _
  rw [pbestCostAt, getD_map_range, hl]
  by_cases hi : i < st.particles.length
  · rw [if_pos hi, if_pos hi, moveParticle_pbestCost,
      getD_updatePBest_zip st.particles costs h i, if_pos hi, updatePBest_pbestCost]
    rfl
  · rw [if_neg hi, if_neg hi]
    rfl

/-- C2. update_personal_best replaces the personal-best pair exactly when
the fresh cost is strictly better (the non-finite sentinel of a fresh
particle makes the first finite evaluation always install it); ties leave
the particle unchanged; and across a well-shaped iteration of the loop no
slot's personal-best cost ever worsens. -/
theorem c2_update_personal_best :
    (∀ (p : Particle) (c : Cost),
        (updatePBest p c).pbestCost = minC c p.pbestCost ∧
        (updatePBest p c).pbestPos =
          (if Cost.isLt c p.pbestCost then p.position else p.pbestPos)) ∧
    (∀ (p : Particle) (c : Cost), Cost.isLt c p.pbestCost = false → updatePBest p c = p) ∧
    (∀ (p : Particle) (c : Cost), c = p.pbestCost → updatePBest p c = p) ∧
    (∀ (p : Particle) (q : ℚ), p.pbestCost = .nonfinite →
        (updatePBest p (.finite q)).pbestCost = .finite q ∧
        (updatePBest p (.finite q)).pbestPos = p.position) ∧
    (∀ {A : Type} (o : Optimizer) (st : LoopState A) (costs : List Cost),
        costs.length = st.particles.length → ∀ i : ℕ,
        Cost.isLt (pbestCostAt st.particles i)
          (pbestCostAt (stepOk o st costs).particles i) = false) := by
  refine ⟨?_, ?_, ?_, ?_, ?_⟩
  · intro p c
    cases hc : Cost.isLt c p.pbestCost <;> simp [updatePBest, minC, hc]
  · intro p c hc
    simp [updatePBest, hc]
  · intro p c hc
    subst hc
    simp [updatePBest, Cost.isLt_irrefl]
  · intro p q hp
    rw [updatePBest, hp]
    simp [Cost.isLt]
  · intro A o st costs h i
    rw [stepOk_pbestCostAt o st costs h i]
    by_cases hi : i < st.particles.length
    · rw [if_pos hi]
      exact isLt_minC_right _ _
    · rw [if_neg hi]
      have : pbestCostAt st.particles i = Cost.nonfinite := by
        rw [pbestCostAt, List.getD_eq_getElem?_getD, List.getElem?_eq_none]
        · rfl
        · exact Nat.le_of_not_lt hi
      rw [this]
      rfl

theorem c2_update_personal_best_witness :
    ((updatePBest dfltParticle (Cost.finite 3)).pbestCost = minC (Cost.finite 3) Cost.nonfinite ∧
      Cost.isLt (Cost.finite 3) Cost.nonfinite = true) ∧
    (sphObj () (posMatrix (initState (okD (mkOptimizer cfgW) dfltOptimizer)
        : LoopState Unit).particles)).length =
      (initState (okD (mkOptimizer cfgW) dfltOptimizer) : LoopState Unit).particles.length ∧
    Cost.isLt
      (pbestCostAt (initState (okD (mkOptimizer cfgW) dfltOptimizer)
        : LoopState Unit).particles 0)
      (pbestCostAt (stepOk (okD (mkOptimizer cfgW) dfltOptimizer)
        (initState (okD (mkOptimizer cfgW) dfltOptimizer) : LoopState Unit)
        (sphObj () (posMatrix (initState (okD (mkOptimizer cfgW) dfltOptimizer)
          : LoopState Unit).particles))).particles 0) = false := by
  refine ⟨⟨?_, by with_unfolding_all decide⟩, ?_, ?_⟩
  · exact (c2_update_personal_best.1 dfltParticle (Cost.finite 3)).1
  · with_unfolding_all decide
  · exact c2_update_personal_best.2.2.2.2 _ _ _ (by with_unfolding_all decide) 0

/-- A successful Except computation is ok at its okD value. -/
theorem okD_isOk {ε α : Type} (x : Except ε α) (d : α) (h : x.isOk = true) :
    x = .ok (okD x d) := by
  cases x with
  | ok a => rfl
  | error e => simp [Except.isOk, Except.toBool] at h

/-- The particle count survives one well-shaped iteration. -/
theorem stepOk_particles_length {A : Type} (o : Optimizer) (st : LoopState A)
    (costs : List Cost) (h : costs.length = st.particles.length) :
    (stepOk o st costs).particles.length = st.particles.length := by
  show ((List.range ((st.particles.zip costs).map
      (fun pc => updatePBest pc.1 pc.2)).length).map _).length = _
  rw [List.length_map, List.length_range, length_updatePBest_zip st.particles costs h]

/-- One iteration advances the iteration counter by exactly one. -/
theorem stepOk_iter {A : Type} (o : Optimizer) (st : LoopState A) (costs : List Cost) :
    (stepOk o st costs).iter = st.iter + 1 := rfl

/-- One iteration advances the single random stream by exactly the two
draws per particle per dimension of the updater; the stream is never
rewound or reseeded. -/
theorem stepOk_ctr {A : Type} (o : Optimizer) (st : LoopState A) (costs : List Cost) :
    (stepOk o st costs).ctr = st.ctr + 2 * o.d * o.n := rfl

/-- The post-evaluation phase of an iteration performs no objective call. -/
theorem stepOk_calls {A : Type} (o : Optimizer) (st : LoopState A) (costs : List Cost) :
    (stepOk o st costs).calls = st.calls := rfl

/-- When every batch the objective can return has the particle count, the
loop never fails and preserves the particle count. -/
theorem runLoop_ok_of_shape {A : Type} (o : Optimizer) (f : A → List (List ℚ) → List Cost)
    (args : A) (hf : ∀ m : List (List ℚ), (f args m).length = o.n) :
    ∀ (t : ℕ) (st : LoopState A), st.particles.length = o.n →
    ∃ st2, runLoop o f args t st = .ok st2 ∧ st2.particles.length = o.n := by
  intro t
  induction t with
  | zero => intro st h; exact ⟨st, rfl, h⟩
  | succ t ih =>
    intro st h
    have hc : (f args (posMatrix st.particles)).length = st.particles.length := by
      rw [hf, h]
    rcases stepIter_cases o f args st with ⟨_, hs⟩ | ⟨hbad, _⟩
    · have hlen : (stepOk o { st with calls := st.calls ++ [(args, posMatrix st.particles)] }
          (f args (posMatrix st.particles))).particles.length = o.n :=
        (stepOk_particles_length o
          { st with calls := st.calls ++ [(args, posMatrix st.particles)] }
          (f args (posMatrix st.particles)) hc).trans h
      obtain ⟨st2, h2, h3⟩ := ih _ hlen
      refine ⟨st2, ?_, h3⟩
      rw [runLoop, hs]
      exact h2
    · exact absurd hc hbad

/-- Splitting a run: the first a iterations, then the remaining b. -/
theorem runLoop_add {A : Type} (o : Optimizer) (f : A → List (List ℚ) → List Cost)
    (args : A) : ∀ (a b : ℕ) (st : LoopState A),
    runLoop o f args (a + b) st =
      (match runLoop o f args a st with
        | .error e => .error e
        | .ok st1 => runLoop o f args b st1) := by
  intro a
  induction a with
  | zero => intro b st; rw [Nat.zero_add]; rfl
  | succ a ih =>
    intro b st
    rw [Nat.succ_add]
    rw [runLoop, runLoop]
    cases hs : stepIter o f args st with
    | error e => rfl
    | ok st1 => exact ih b st1

/-- The iteration counter counts the completed iterations. -/
theorem runLoop_iter {A : Type} (o : Optimizer) (f : A → List (List ℚ) → List Cost)
    (args : A) : ∀ (t : ℕ) (st st2 : LoopState A),
    runLoop o f args t st = .ok st2 → st2.iter = st.iter + t := by
  intro t
  induction t with
  | zero => intro st st2 h; cases h; rfl
  | succ t ih =>
    intro st st2 h
    rw [runLoop] at h
    rcases stepIter_cases o f args st with ⟨_, hs⟩ | ⟨_, hs⟩
    · rw [hs] at h
      have h2 := ih _ _ h
      rw [h2, stepOk_iter]
      show st.iter + 1 + t = st.iter + (t + 1)
      omega
    · rw [hs] at h
      cases h

/-- C10. A non-finite (NaN or Inf) cost raises no error: it is ordered
worse than every finite cost, never enters a personal best, and a run whose
objective returns well-sized batches of possibly non-finite costs completes
and produces a result. -/
theorem c10_nonfinite_cost_policy :
    (∀ p : Particle, updatePBest p .nonfinite = p) ∧
    (∀ q : ℚ, Cost.isLt (Cost.finite q) Cost.nonfinite = true) ∧
    (∀ c : Cost, Cost.isLt Cost.nonfinite c = false) ∧
    (∀ {A : Type} (cfg : PsoConfig) (f : A → List (List ℚ) → List Cost) (args : A)
      (iters : ℕ) (o : Optimizer), mkOptimizer cfg = .ok o →
      (∀ m : List (List ℚ), (f args m).length = o.n) →
      (runPso cfg f args iters).isOk = true) := by
  refine ⟨?_, ?_, ?_, ?_⟩
  · intro p
    simp [updatePBest, Cost.isLt]
  · intro q
    rfl
  · intro c
    rfl
  · intro A cfg f args iters o hm hf
    rw [runPso, hm]
    show (optimize o f args iters).isOk = true
    rw [optimize]
    obtain ⟨st2, h2, _⟩ := runLoop_ok_of_shape o f args hf iters (initState o) (by
      show ((List.range o.n).map (initParticle o)).length = o.n
      rw [List.length_map, List.length_range])
    rw [h2]
    rfl

/-- Shared concrete fixture: an objective that always reports the
non-finite cost for both particles of the small swarm. -/
def nanObj : Unit → List (List ℚ) → List Cost := fun _ _ => [Cost.nonfinite, Cost.nonfinite]

theorem c10_nonfinite_cost_policy_witness :
    (updatePBest dfltParticle Cost.nonfinite = dfltParticle) ∧
    (mkOptimizer cfgW = .ok (okD (mkOptimizer cfgW) dfltOptimizer) ∧
      (runPso cfgW nanObj () 3).isOk = true) :=
  ⟨c10_nonfinite_cost_policy.1 dfltParticle,
    by with_unfolding_all decide,
    c10_nonfinite_cost_policy.2.2.2 cfgW nanObj () 3 (okD (mkOptimizer cfgW) dfltOptimizer)
      (by with_unfolding_all decide) (fun _ => rfl)⟩

/-- Freshly seeded swarms have exactly the configured particle count. -/
theorem initState_particles_length {A : Type} (o : Optimizer) :
    (initState o : LoopState A).particles.length = o.n := by
  show ((List.range o.n).map (initParticle o)).length = o.n
  rw [List.length_map, List.length_range]

/-- A failing loop surfaces the error from optimize unchanged. -/
theorem optimize_error {A : Type} (o : Optimizer) (f : A → List (List ℚ) → List Cost)
    (args : A) (iters : ℕ) (e : PsoError)
    (h : runLoop o f args iters (initState o : LoopState A) = .error e) :
    optimize o f args iters = .error e := by
  rw [optimize, h]

/-- C8. A batch of the wrong length is fatal: if the objective returns a
mismatched vector at the first reached iteration t, optimize aborts with
ShapeError t and produces no result; conversely, when every returned batch
has the particle count no ShapeError is ever raised. -/
theorem c8_shape_error :
    (∀ {A : Type} (cfg : PsoConfig) (f : A → List (List ℚ) → List Cost) (args : A)
      (o : Optimizer) (iters t : ℕ), mkOptimizer cfg = .ok o →
      (statesAfter o f args t).isOk = true → t < iters →
      (f args (posMatrix (okD (statesAfter o f args t) dfltState).particles)).length ≠
        (okD (statesAfter o f args t) dfltState).particles.length →
      runPso cfg f args iters = .error (.shapeError t)) ∧
    (∀ {A : Type} (cfg : PsoConfig) (f : A → List (List ℚ) → List Cost) (args : A)
      (o : Optimizer) (iters : ℕ), mkOptimizer cfg = .ok o →
      (∀ m : List (List ℚ), (f args m).length = o.n) →
      ∀ t : ℕ, runPso cfg f args iters ≠ .error (.shapeError t)) := by
  constructor
  · intro A cfg f args o iters t hm ht hlt hbad
    have hst : statesAfter o f args t = .ok (okD (statesAfter o f args t) dfltState) :=
      okD_isOk _ _ ht
    have hst2 : runLoop o f args t (initState o : LoopState A) =
        .ok (okD (statesAfter o f args t) dfltState) := hst
    have hit : (okD (statesAfter o f args t) dfltState).iter = t := by
      have h2 := runLoop_iter o f args t (initState o) _ hst2
      rw [h2]
      show (0 : ℕ) + t = t
      omega
    have hiters : t + (iters - t) = iters := Nat.add_sub_cancel' (le_of_lt hlt)
    have hrl : runLoop o f args iters (initState o : LoopState A) =
        .error (.shapeError t) := by
      rw [← hiters, runLoop_add, hst2]
      show runLoop o f args (iters - t) (okD (statesAfter o f args t) dfltState) = _
      obtain ⟨k, hk⟩ : ∃ k, iters - t = k + 1 := ⟨iters - t - 1, by omega⟩
      rw [hk, runLoop]
      rcases stepIter_cases o f args (okD (statesAfter o f args t) dfltState) with
        ⟨hgood, _⟩ | ⟨_, hs⟩
      · exact absurd hgood hbad
      · rw [hs]
        show Except.error (PsoError.shapeError
          (okD (statesAfter o f args t) dfltState).iter) = _
        rw [hit]
    rw [runPso, hm]
    show optimize o f args iters = _
    exact optimize_error o f args iters _ hrl
  · intro A cfg f args o iters hm hf t
    rw [runPso, hm]
    show optimize o f args iters ≠ _
    rw [optimize]
    obtain ⟨st2, h2, _⟩ := runLoop_ok_of_shape o f args hf iters (initState o)
      (initState_particles_length o)
    rw [h2]
    simp

/-- Shared concrete fixture: an objective whose batch has the wrong length
(one cost for a two-particle swarm). -/
def badObj : Unit → List (List ℚ) → List Cost := fun _ _ => [Cost.finite 0]

theorem c8_shape_error_witness :
    (mkOptimizer cfgW = .ok (okD (mkOptimizer cfgW) dfltOptimizer) ∧
      (statesAfter (okD (mkOptimizer cfgW) dfltOptimizer) badObj () 0).isOk = true ∧
      (badObj () (posMatrix (okD (statesAfter (okD (mkOptimizer cfgW) dfltOptimizer)
          badObj () 0) dfltState).particles)).length ≠
        (okD (statesAfter (okD (mkOptimizer cfgW) dfltOptimizer) badObj () 0)
          dfltState).particles.length ∧
      runPso cfgW badObj () 1 = .error (.shapeError 0)) ∧
    runPso cfgW nanObj () 2 ≠ .error (.shapeError 0) := by
  refine ⟨⟨by with_unfolding_all decide, by with_unfolding_all decide,
    by with_unfolding_all decide, ?_⟩, ?_⟩
  · exact c8_shape_error.1 cfgW badObj () (okD (mkOptimizer cfgW) dfltOptimizer) 1 0
      (by with_unfolding_all decide) (by with_unfolding_all decide)
      (by decide) (by with_unfolding_all decide)
  · exact c8_shape_error.2 cfgW nanObj () (okD (mkOptimizer cfgW) dfltOptimizer) 2
      (by with_unfolding_all decide) (fun _ => rfl) 0

/-- C9. A configuration whose options mapping lacks the required key c1
fails at construction with a ConfigurationError, before any evaluation: the
outcome is an error for every iteration budget and does not depend on the
objective function, which is never called. -/
theorem c9_missing_required_option :
    ∀ {A : Type} (cfg : PsoConfig) (f g : A → List (List ℚ) → List Cost) (args : A)
      (iters : ℕ), cfg.options.lookup ("c1") = none →
      (∃ msg, runPso cfg f args iters = .error (.configError msg)) ∧
      runPso cfg f args iters = runPso cfg g args iters := by
  intro A cfg f g args iters hc
  have hmk : ∃ msg, mkOptimizer cfg = .error (.configError msg) := by
    rw [mkOptimizer]
    by_cases h1 : cfg.n_particles = 0
    · rw [if_pos h1]; exact ⟨_, rfl⟩
    rw [if_neg h1]
    by_cases h2 : cfg.dimensions = 0
    · rw [if_pos h2]; exact ⟨_, rfl⟩
    rw [if_neg h2, hc]
    cases cfg.options.lookup ("c2") <;> cases cfg.options.lookup ("w") <;> exact ⟨_, rfl⟩
  obtain ⟨msg, hmsg⟩ := hmk
  refine ⟨⟨msg, ?_⟩, ?_⟩
  · rw [runPso, hmsg]
  · rw [runPso, runPso, hmsg]

/-- Shared concrete fixture: the notebook options with the required key c1
removed. -/
def cfgNoC1 : PsoConfig :=
  { cfgW with options := [("c2", mkRat 3 10), ("w", mkRat 9 10)] }

theorem c9_missing_required_option_witness :
    cfgNoC1.options.lookup ("c1") = none ∧
      (∃ msg, runPso cfgNoC1 sphObj () 5 = .error (.configError msg)) ∧
      runPso cfgNoC1 sphObj () 5 = runPso cfgNoC1 nanObj () 5 := by
  refine ⟨by with_unfolding_all decide, ?_, ?_⟩
  · exact (c9_missing_required_option cfgNoC1 sphObj nanObj () 5
      (by with_unfolding_all decide)).1
  · exact (c9_missing_required_option cfgNoC1 sphObj nanObj () 5
      (by with_unfolding_all decide)).2

/-- C6. Runs are reproducible from the construction inputs alone: two
optimizers built from identical configurations (in particular the same
rng seed) produce bit-identical outcomes and cost histories for the same
objective and budget; the model draws every random number from the one
stream seeded at construction, whose position only ever advances by the
draws the seeding and each iteration consume, and is never reseeded. -/
theorem c6_seed_determinism :
    (∀ {A : Type} (cfg1 cfg2 : PsoConfig) (f : A → List (List ℚ) → List Cost) (args : A)
      (iters : ℕ), cfg1 = cfg2 →
      runPso cfg1 f args iters = runPso cfg2 f args iters ∧
      (okD (runPso cfg1 f args iters) dfltResult).cost_history =
        (okD (runPso cfg2 f args iters) dfltResult).cost_history) ∧
    (∀ {A : Type} (o : Optimizer), (initState o : LoopState A).ctr = o.d * o.n) ∧
    (∀ {A : Type} (o : Optimizer) (st : LoopState A) (costs : List Cost),
      (stepOk o st costs).ctr = st.ctr + 2 * o.d * o.n) := by
  refine ⟨?_, ?_, ?_⟩
  · intro A cfg1 cfg2 f args iters h
    subst h
    exact ⟨rfl, rfl⟩
  · intro A o
    rfl
  · intro A o st costs
    rfl

theorem c6_seed_determinism_witness :
    cfgW = cfgW ∧ runPso cfgW sphObj () 2 = runPso cfgW sphObj () 2 :=
  ⟨rfl, (c6_seed_determinism.1 cfgW cfgW sphObj () 2 rfl).1⟩

/-- The notebook's parameterized Rosenbrock objective: one cost per row,
computed from the fixed parameters a, b and c. -/
def rosenbrock_with_args (x : List (List ℚ)) (a b c : ℚ) : List Cost :=
  x.map (fun row => Cost.finite
    ((a - row.getD 0 0) ^ 2 + b * (row.getD 1 0 - (row.getD 0 0) ^ 2) ^ 2 + c))

/-- Keyword lookup with the declared default of the user function. -/
def kwargsGetD (kw : List (String × ℚ)) (key : String) (dflt : ℚ) : ℚ :=
  (kw.lookup key).getD dflt

/-- Modelled from the spec/notebook: the Rosenbrock objective taking its
parameters from a keyword mapping forwarded verbatim by the evaluator;
a and b are required, c defaults to 0 as declared by the user function. -/
def rosenKW (kw : List (String × ℚ)) (x : List (List ℚ)) : List Cost :=
  rosenbrock_with_args x (kwargsGetD kw ("a") 0) (kwargsGetD kw ("b") 0)
    (kwargsGetD kw ("c") 0)

/-- Shape invariant of a loop state: the configured particle count and one
coordinate per dimension in every position. -/
def wellFormed {A : Type} (o : Optimizer) (st : LoopState A) : Prop :=
  st.particles.length = o.n ∧ ∀ p ∈ st.particles, p.position.length = o.d

/-- The bounds handler never changes the coordinate count. -/
theorem length_clipVec (b : Option (List ℚ × List ℚ)) (x : List ℚ) :
    (clipVec b x).length = x.length := by
  cases b with
  | none => rfl
  | some lohi => simp [clipVec]

/-- A moved particle has one position coordinate per dimension. -/
theorem moveParticle_position_length (o : Optimizer) (ctr i : ℕ) (p : Particle)
    (nb : List ℚ) : (moveParticle o ctr i p nb).position.length = o.d := by
  show (clipVec o.bounds _).length = o.d
  rw [length_clipVec]
  simp

theorem stepOk_wellFormed {A : Type} (o : Optimizer) (st : LoopState A) (costs : List Cost)
    (hw : wellFormed o st) (hc : costs.length = st.particles.length) :
    wellFormed o (stepOk o st costs) := by
  constructor
  · rw [stepOk_particles_length o st costs hc]
    exact hw.1
  · intro p hp
    obtain ⟨i, _, hpi⟩ := List.mem_map.mp hp
    rw [← hpi]
    exact moveParticle_position_length o st.ctr i _ _

theorem initState_wellFormed {A : Type} (o : Optimizer) :
    wellFormed o (initState o : LoopState A) := by
  constructor
  · exact initState_particles_length o
  · intro p hp
    obtain ⟨i, _, hpi⟩ := List.mem_map.mp hp
    rw [← hpi]
    show ((List.range o.d).map _).length = o.d
    simp

/-- Full-run call log: a successful run of t iterations appends exactly t
evaluator calls, each carrying the captured argument tuple and a full
batch of positions, one row of the configured dimension per particle. -/
theorem runLoop_calls_spec {A : Type} (o : Optimizer) (f : A → List (List ℚ) → List Cost)
    (args : A) : ∀ (t : ℕ) (st st2 : LoopState A), wellFormed o st →
    runLoop o f args t st = .ok st2 →
    wellFormed o st2 ∧ st2.calls.length = st.calls.length + t ∧
    ∀ e ∈ st2.calls, e ∈ st.calls ∨
      (e.1 = args ∧ e.2.length = o.n ∧ ∀ row ∈ e.2, row.length = o.d) := by
  intro t
  induction t with
  | zero =>
    intro st st2 hw hr
    cases hr
    exact ⟨hw, rfl, fun e he => .inl he⟩
  | succ t ih =>
    intro st st2 hw hr
    rw [runLoop] at hr
    rcases stepIter_cases o f args st with ⟨hgood, hs⟩ | ⟨_, hs⟩
    · rw [hs] at hr
      have hr2 : runLoop o f args t
          (stepOk o { st with calls := st.calls ++ [(args, posMatrix st.particles)] }
            (f args (posMatrix st.particles))) = .ok st2 := hr
      have hw2 : wellFormed o
          (stepOk o { st with calls := st.calls ++ [(args, posMatrix st.particles)] }
            (f args (posMatrix st.particles))) :=
        stepOk_wellFormed o _ _ ⟨hw.1, hw.2⟩ hgood
      obtain ⟨hwf, hlen, hent⟩ := ih _ _ hw2 hr2
      have hcalls : (stepOk o
          { st with calls := st.calls ++ [(args, posMatrix st.particles)] }
          (f args (posMatrix st.particles))).calls =
          st.calls ++ [(args, posMatrix st.particles)] := rfl
      refine ⟨hwf, ?_, ?_⟩
      · rw [hlen, hcalls]
        simp
        omega
      · intro e he
        rcases hent e he with hin | hgoodE
        · rw [hcalls] at hin
          rcases List.mem_append.mp hin with h1 | h2
          · exact .inl h1
          · right
            have he2 : e = (args, posMatrix st.particles) := by simpa using h2
            subst he2
            refine ⟨rfl, ?_, ?_⟩
            · show (st.particles.map _).length = o.n
              rw [List.length_map, hw.1]
            · intro row hrow
              obtain ⟨p, hp, hrp⟩ := List.mem_map.mp hrow
              rw [← hrp]
              exact hw.2 p hp
        · exact .inr hgoodE
    · rw [hs] at hr
      cases hr

/-- C7. Evaluator contract: every iteration performs exactly one objective
call, on the whole position matrix with one row of the configured dimension
per particle, forwarding the argument tuple captured at the optimize call
identically every iteration; the post-evaluation phase never calls the
objective; and a keyword parameter left out of the forwarded mapping takes
the default the user function declares. -/
theorem c7_evaluator_contract :
    (∀ {A : Type} (o : Optimizer) (f : A → List (List ℚ) → List Cost) (args : A)
      (st : LoopState A),
      (f args (posMatrix st.particles)).length = st.particles.length →
      stepIter o f args st = .ok (stepOk o
        { st with calls := st.calls ++ [(args, posMatrix st.particles)] }
        (f args (posMatrix st.particles)))) ∧
    (∀ {A : Type} (o : Optimizer) (st : LoopState A) (costs : List Cost),
      (stepOk o st costs).calls = st.calls) ∧
    (∀ {A : Type} (cfg : PsoConfig) (f : A → List (List ℚ) → List Cost) (args : A)
      (iters : ℕ) (o : Optimizer), mkOptimizer cfg = .ok o →
      (statesAfter o f args iters).isOk = true →
      (okD (statesAfter o f args iters) dfltState).calls.length = iters ∧
      ∀ e ∈ (okD (statesAfter o f args iters) dfltState).calls,
        e.1 = args ∧ e.2.length = o.n ∧ ∀ row ∈ e.2, row.length = o.d) ∧
    (∀ (x : List (List ℚ)) (qa qb : ℚ),
      rosenKW [(("a"), qa), (("b"), qb)] x = rosenbrock_with_args x qa qb 0) := by
  refine ⟨?_, ?_, ?_, ?_⟩
  · intro A o f args st hgood
    rcases stepIter_cases o f args st with ⟨_, hs⟩ | ⟨hbad, _⟩
    · exact hs
    · exact absurd hgood hbad
  · intro A o st costs
    rfl
  · intro A cfg f args iters o _ hok
    have hst : statesAfter o f args iters = .ok (okD (statesAfter o f args iters) dfltState) :=
      okD_isOk _ _ hok
    obtain ⟨_, hlen, hent⟩ := runLoop_calls_spec o f args iters (initState o)
      (okD (statesAfter o f args iters) dfltState) (initState_wellFormed o) hst
    refine ⟨?_, ?_⟩
    · rw [hlen]
      show (List.length ([] : List (A × List (List ℚ)))) + iters = iters
      simp
    · intro e he
      rcases hent e he with hin | hgoodE
      · cases hin
      · exact hgoodE
  · intro x qa qb
    rfl

theorem c7_evaluator_contract_witness :
    ((sphObj () (posMatrix (initState (okD (mkOptimizer cfgW) dfltOptimizer)
        : LoopState Unit).particles)).length =
      (initState (okD (mkOptimizer cfgW) dfltOptimizer)
        : LoopState Unit).particles.length) ∧
    (mkOptimizer cfgW = .ok (okD (mkOptimizer cfgW) dfltOptimizer) ∧
      (statesAfter (okD (mkOptimizer cfgW) dfltOptimizer) sphObj () 2).isOk = true ∧
      (okD (statesAfter (okD (mkOptimizer cfgW) dfltOptimizer) sphObj () 2)
        dfltState).calls.length = 2) ∧
    rosenKW [(("a"), 1), (("b"), 100)] [[0, 0]] = rosenbrock_with_args [[0, 0]] 1 100 0 := by
  refine ⟨by with_unfolding_all decide, ⟨by with_unfolding_all decide,
    by with_unfolding_all decide, ?_⟩, ?_⟩
  · exact (c7_evaluator_contract.2.2.1 cfgW sphObj () 2
      (okD (mkOptimizer cfgW) dfltOptimizer) (by with_unfolding_all decide)
      (by with_unfolding_all decide)).1
  · exact c7_evaluator_contract.2.2.2 [[0, 0]] 1 100

/-- Positional access to a moved particle of a step. -/
theorem stepOk_particle_getD {A : Type} (o : Optimizer) (st : LoopState A)
    (costs : List Cost) (hc : costs.length = st.particles.length) (i : ℕ)
    (hi : i < st.particles.length) :
    (stepOk o st costs).particles.getD i dfltParticle =
      moveParticle o st.ctr i
        (((st.particles.zip costs).map (fun pc => updatePBest pc.1 pc.2)).getD i dfltParticle)
        (nbPosFor o ((st.particles.zip costs).map (fun pc => updatePBest pc.1 pc.2)) i) := by
  show ((List.range ((st.particles.zip costs).map
      (fun pc => updatePBest pc.1 pc.2)).length).map _).getD i dfltParticle = _
  rw [getD_map_range, length_updatePBest_zip st.particles costs hc, if_pos hi]

/-- The unclamped velocity coordinate of a moved particle follows the
stochastic update rule with the two stream draws of its slot. -/
theorem moveParticle_velocity_none (o : Optimizer) (ctr i : ℕ) (p : Particle)
    (nb : List ℚ) (j : ℕ) (hj : j < o.d) (hnone : o.vclamp = none) :
    (moveParticle o ctr i p nb).velocity.getD j 0 =
      velDim o.w o.c1 o.c2 (rand01 o.seed (ctr + 2 * o.d * i + 2 * j))
        (rand01 o.seed (ctr + 2 * o.d * i + 2 * j + 1))
        (p.velocity.getD j 0) (p.position.getD j 0) (p.pbestPos.getD j 0)
        (nb.getD j 0) := by
  simp only [moveParticle, hnone]
  rw [getD_map_range, if_pos hj]

/-- With a velocity clamp configured, the stored velocity coordinate is the
clamped value of the same stochastic update. -/
theorem moveParticle_velocity_clamp (o : Optimizer) (ctr i : ℕ) (p : Particle)
    (nb : List ℚ) (j : ℕ) (hj : j < o.d) (vm : List ℚ) (hvm : o.vclamp = some vm) :
    (moveParticle o ctr i p nb).velocity.getD j 0 =
      clampScalar (vm.getD j 0)
        (velDim o.w o.c1 o.c2 (rand01 o.seed (ctr + 2 * o.d * i + 2 * j))
          (rand01 o.seed (ctr + 2 * o.d * i + 2 * j + 1))
          (p.velocity.getD j 0) (p.position.getD j 0) (p.pbestPos.getD j 0)
          (nb.getD j 0)) := by
  simp only [moveParticle, hvm]
  rw [getD_map_range, if_pos hj, getD_map_range, if_pos hj]

/-- A moved particle's position is the clip of old position plus stored
velocity, dimension by dimension. -/
theorem moveParticle_position (o : Optimizer) (ctr i : ℕ) (p : Particle) (nb : List ℚ) :
    (moveParticle o ctr i p nb).position =
      clipVec o.bounds ((List.range o.d).map
        (fun j => p.position.getD j 0 + (moveParticle o ctr i p nb).velocity.getD j 0)) := rfl

set_option maxRecDepth 4000 in
/-- Every stream draw lies in the half-open unit interval. -/
theorem rand01_bounds (seed t : ℕ) : 0 ≤ rand01 seed t ∧ rand01 seed t < 1 := by
  constructor
  · rw [rand01, Rat.mkRat_eq_div]
    positivity
  · have hs : lcgState seed (t + 1) < 2147483648 := by
      show lcgNext (lcgState seed t) < 2147483648
      exact Nat.mod_lt _ (by norm_num)
    rw [rand01, Rat.mkRat_eq_div, div_lt_one (by positivity)]
    exact_mod_cast hs

/-- C3. The per-particle per-dimension update: the stored velocity is
w*v + c1*r1*(pbest - x) + c2*r2*(nbest - x) with r1, r2 two distinct draws
of the single stream in [0,1), one fresh pair per particle per dimension
per iteration; velocity is clamped only when a velocity clamp is
configured; and the new position is the old position plus the stored
velocity, clipped afterwards by the bounds handler. -/
theorem c3_velocity_position_update :
    (∀ {A : Type} (o : Optimizer) (st : LoopState A) (costs : List Cost) (i j : ℕ),
      costs.length = st.particles.length → i < st.particles.length → j < o.d →
      o.vclamp = none →
      ((stepOk o st costs).particles.getD i dfltParticle).velocity.getD j 0 =
        velDim o.w o.c1 o.c2
          (rand01 o.seed (st.ctr + 2 * o.d * i + 2 * j))
          (rand01 o.seed (st.ctr + 2 * o.d * i + 2 * j + 1))
          ((((st.particles.zip costs).map (fun pc => updatePBest pc.1 pc.2)).getD i
            dfltParticle).velocity.getD j 0)
          ((((st.particles.zip costs).map (fun pc => updatePBest pc.1 pc.2)).getD i
            dfltParticle).position.getD j 0)
          ((((st.particles.zip costs).map (fun pc => updatePBest pc.1 pc.2)).getD i
            dfltParticle).pbestPos.getD j 0)
          ((nbPosFor o ((st.particles.zip costs).map (fun pc => updatePBest pc.1 pc.2))
            i).getD j 0)) ∧
    (∀ {A : Type} (o : Optimizer) (st : LoopState A) (costs : List Cost) (i j : ℕ)
      (vm : List ℚ), costs.length = st.particles.length → i < st.particles.length →
      j < o.d → o.vclamp = some vm →
      ((stepOk o st costs).particles.getD i dfltParticle).velocity.getD j 0 =
        clampScalar (vm.getD j 0)
          (velDim o.w o.c1 o.c2
            (rand01 o.seed (st.ctr + 2 * o.d * i + 2 * j))
            (rand01 o.seed (st.ctr + 2 * o.d * i + 2 * j + 1))
            ((((st.particles.zip costs).map (fun pc => updatePBest pc.1 pc.2)).getD i
              dfltParticle).velocity.getD j 0)
            ((((st.particles.zip costs).map (fun pc => updatePBest pc.1 pc.2)).getD i
              dfltParticle).position.getD j 0)
            ((((st.particles.zip costs).map (fun pc => updatePBest pc.1 pc.2)).getD i
              dfltParticle).pbestPos.getD j 0)
            ((nbPosFor o ((st.particles.zip costs).map (fun pc => updatePBest pc.1 pc.2))
              i).getD j 0))) ∧
    (∀ {A : Type} (o : Optimizer) (st : LoopState A) (costs : List Cost) (i : ℕ),
      costs.length = st.particles.length → i < st.particles.length →
      ((stepOk o st costs).particles.getD i dfltParticle).position =
        clipVec o.bounds ((List.range o.d).map (fun j =>
          (((st.particles.zip costs).map (fun pc => updatePBest pc.1 pc.2)).getD i
            dfltParticle).position.getD j 0 +
          ((stepOk o st costs).particles.getD i dfltParticle).velocity.getD j 0))) ∧
    (∀ seed t : ℕ, 0 ≤ rand01 seed t ∧ rand01 seed t < 1) ∧
    (∀ (d i1 j1 i2 j2 : ℕ), j1 < d → j2 < d →
      2 * d * i1 + 2 * j1 = 2 * d * i2 + 2 * j2 → i1 = i2 ∧ j1 = j2) := by
  refine ⟨?_, ?_, ?_, rand01_bounds, ?_⟩
  · intro A o st costs i j hc hi hj hnone
    rw [stepOk_particle_getD o st costs hc i hi]
    exact moveParticle_velocity_none o st.ctr i _ _ j hj hnone
  · intro A o st costs i j vm hc hi hj hvm
    rw [stepOk_particle_getD o st costs hc i hi]
    exact moveParticle_velocity_clamp o st.ctr i _ _ j hj vm hvm
  · intro A o st costs i hc hi
    rw [stepOk_particle_getD o st costs hc i hi]
    exact moveParticle_position o st.ctr i _ _
  · intro d i1 j1 i2 j2 hj1 hj2 h
    have hd : 0 < d := Nat.lt_of_le_of_lt (Nat.zero_le _) hj1
    have h2 : d * i1 + j1 = d * i2 + j2 := by
      have h3 : 2 * (d * i1 + j1) = 2 * (d * i2 + j2) := by ring_nf; ring_nf at h; omega
      omega
    have hi : i1 = i2 := by
      have e1 : (d * i1 + j1) / d = i1 := by
        rw [Nat.mul_add_div hd, Nat.div_eq_of_lt hj1]
        omega
      have e2 : (d * i2 + j2) / d = i2 := by
        rw [Nat.mul_add_div hd, Nat.div_eq_of_lt hj2]
        omega
      rw [← e1, ← e2, h2]
    refine ⟨hi, ?_⟩
    subst hi
    omega

/-- Shared concrete fixture: the validated optimizer of the notebook
configuration. -/
def oW : Optimizer := okD (mkOptimizer cfgW) dfltOptimizer

/-- Shared concrete fixture: its freshly seeded loop state. -/
def stW : LoopState Unit := initState oW

/-- Shared concrete fixture: the sphere costs of the seeded positions. -/
def costsW : List Cost := sphObj () (posMatrix stW.particles)

theorem c3_velocity_position_update_witness :
    (((stepOk oW stW costsW).particles.getD 0 dfltParticle).velocity.getD 0 0 =
      velDim oW.w oW.c1 oW.c2
        (rand01 oW.seed (stW.ctr + 2 * oW.d * 0 + 2 * 0))
        (rand01 oW.seed (stW.ctr + 2 * oW.d * 0 + 2 * 0 + 1))
        ((((stW.particles.zip costsW).map (fun pc => updatePBest pc.1 pc.2)).getD 0
          dfltParticle).velocity.getD 0 0)
        ((((stW.particles.zip costsW).map (fun pc => updatePBest pc.1 pc.2)).getD 0
          dfltParticle).position.getD 0 0)
        ((((stW.particles.zip costsW).map (fun pc => updatePBest pc.1 pc.2)).getD 0
          dfltParticle).pbestPos.getD 0 0)
        ((nbPosFor oW ((stW.particles.zip costsW).map (fun pc => updatePBest pc.1 pc.2))
          0).getD 0 0)) ∧
    (0 ≤ rand01 42 5 ∧ rand01 42 5 < 1) ∧
    ((2 * 3 * 1 + 2 * 2 : ℕ) = 2 * 3 * 1 + 2 * 2 → (1 : ℕ) = 1 ∧ (2 : ℕ) = 2) := by
  refine ⟨?_, ?_, ?_⟩
  · exact c3_velocity_position_update.1 oW stW costsW 0 0
      (by with_unfolding_all decide) (by with_unfolding_all decide)
      (by with_unfolding_all decide) (by with_unfolding_all decide)
  · exact c3_velocity_position_update.2.2.2.1 42 5
  · exact fun h => c3_velocity_position_update.2.2.2.2 3 1 2 1 2
      (by decide) (by decide) h

/-- Construction succeeds only on validated inputs: positive counts and
well-formed bounds and velocity clamp. -/
theorem mkOptimizer_ok {cfg : PsoConfig} {o : Optimizer} (h : mkOptimizer cfg = .ok o) :
    0 < o.n ∧ 0 < o.d ∧ boundsOk o.d o.bounds = true ∧ vclampOk o.d o.vclamp = true := by
  rw [mkOptimizer] at h
  by_cases h1 : cfg.n_particles = 0
  · rw [if_pos h1] at h; exact Except.noConfusion h
  rw [if_neg h1] at h
  by_cases h2 : cfg.dimensions = 0
  · rw [if_pos h2] at h; exact Except.noConfusion h
  rw [if_neg h2] at h
  cases hc1 : cfg.options.lookup ("c1") with
  | none => simp only [hc1] at h; exact Except.noConfusion h
  | some c1v =>
  simp only [hc1] at h
  cases hc2 : cfg.options.lookup ("c2") with
  | none => simp only [hc2] at h; exact Except.noConfusion h
  | some c2v =>
  simp only [hc2] at h
  cases hcw : cfg.options.lookup ("w") with
  | none => simp only [hcw] at h; exact Except.noConfusion h
  | some wv =>
  simp only [hcw] at h
  by_cases h3 : (c1v < 0 ∨ c2v < 0 ∨ wv < 0)
  · rw [if_pos h3] at h; exact Except.noConfusion h
  rw [if_neg h3] at h
  by_cases h4 : boundsOk cfg.dimensions cfg.bounds = false
  · rw [if_pos h4] at h; exact Except.noConfusion h
  rw [if_neg h4] at h
  by_cases h5 : vclampOk cfg.dimensions cfg.velocity_clamp = false
  · rw [if_pos h5] at h; exact Except.noConfusion h
  rw [if_neg h5] at h
  cases htop : cfg.topology with
  | globalBest =>
    simp only [htop] at h
    cases h
    exact ⟨Nat.pos_of_ne_zero h1, Nat.pos_of_ne_zero h2,
      Bool.ne_false_iff.mp h4, Bool.ne_false_iff.mp h5⟩
  | ringLocal =>
    simp only [htop] at h
    cases hk : cfg.options.lookup ("k") with
    | none => simp only [hk] at h; exact Except.noConfusion h
    | some kq =>
    simp only [hk] at h
    cases hp : cfg.options.lookup ("p") with
    | none => simp only [hp] at h; exact Except.noConfusion h
    | some pq =>
    simp only [hp] at h
    cases hqk : qToNat kq with
    | none => simp only [hqk] at h; exact Except.noConfusion h
    | some kv =>
    simp only [hqk] at h
    cases hqp : qToNat pq with
    | none => simp only [hqp] at h; exact Except.noConfusion h
    | some pv =>
    simp only [hqp] at h
    by_cases h6 : (1 ≤ kv ∧ kv < cfg.n_particles ∧ (pv = 1 ∨ pv = 2))
    · rw [if_pos h6] at h
      cases h
      exact ⟨Nat.pos_of_ne_zero h1, Nat.pos_of_ne_zero h2,
        Bool.ne_false_iff.mp h4, Bool.ne_false_iff.mp h5⟩
    · rw [if_neg h6] at h; exact Except.noConfusion h

/-- Unpacking the bounds validation. -/
theorem boundsOk_some {d : ℕ} {lb ub : List ℚ} (h : boundsOk d (some (lb, ub)) = true) :
    lb.length = d ∧ ub.length = d ∧ ∀ j, j < d → lb.getD j 0 < ub.getD j 0 := by
  simp only [boundsOk, Bool.and_eq_true, decide_eq_true_eq, List.all_eq_true,
    List.mem_range] at h
  exact ⟨h.1.1, h.1.2, fun j hj => h.2 j hj⟩

/-- The clipped coordinate lies in the box. -/
theorem clipScalar_mem (lo hi x : ℚ) (h : lo ≤ hi) :
    lo ≤ clipScalar lo hi x ∧ clipScalar lo hi x ≤ hi :=
  ⟨le_max_left _ _, max_le h (min_le_left _ _)⟩

/-- All positions of a swarm inside the configured box. -/
def inBounds (lb ub : List ℚ) (d : ℕ) (ps : List Particle) : Prop :=
  ∀ p ∈ ps, ∀ j, j < d →
    lb.getD j 0 ≤ p.position.getD j 0 ∧ p.position.getD j 0 ≤ ub.getD j 0

/-- Seeded positions are drawn inside the bounds. -/
theorem initParticle_inBounds (o : Optimizer) (lb ub : List ℚ)
    (hb : o.bounds = some (lb, ub)) (hlu : ∀ j, j < o.d → lb.getD j 0 < ub.getD j 0)
    (i j : ℕ) (hj : j < o.d) :
    lb.getD j 0 ≤ (initParticle o i).position.getD j 0 ∧
      (initParticle o i).position.getD j 0 ≤ ub.getD j 0 := by
  have hcoord : (initParticle o i).position.getD j 0 =
      lb.getD j 0 + rand01 o.seed (o.d * i + j) * (ub.getD j 0 - lb.getD j 0) := by
    show ((List.range o.d).map _).getD j 0 = _
    rw [getD_map_range, if_pos hj, hb]
  rw [hcoord]
  obtain ⟨hr0, hr1⟩ := rand01_bounds o.seed (o.d * i + j)
  have hlt := hlu j hj
  constructor
  · have : 0 ≤ rand01 o.seed (o.d * i + j) * (ub.getD j 0 - lb.getD j 0) :=
      mul_nonneg hr0 (by linarith)
    linarith
  · have : rand01 o.seed (o.d * i + j) * (ub.getD j 0 - lb.getD j 0) ≤
        1 * (ub.getD j 0 - lb.getD j 0) :=
      mul_le_mul_of_nonneg_right (le_of_lt hr1) (by linarith)
    linarith

/-- A moved particle's position is clipped into the box. -/
theorem moveParticle_inBounds (o : Optimizer) (lb ub : List ℚ)
    (hb : o.bounds = some (lb, ub)) (hlu : ∀ j, j < o.d → lb.getD j 0 ≤ ub.getD j 0)
    (ctr i : ℕ) (p : Particle) (nb : List ℚ) (j : ℕ) (hj : j < o.d) :
    lb.getD j 0 ≤ (moveParticle o ctr i p nb).position.getD j 0 ∧
      (moveParticle o ctr i p nb).position.getD j 0 ≤ ub.getD j 0 := by
  have hcoord : (moveParticle o ctr i p nb).position.getD j 0 =
      clipScalar (lb.getD j 0) (ub.getD j 0)
        (((List.range o.d).map (fun j2 => p.position.getD j2 0 +
          (moveParticle o ctr i p nb).velocity.getD j2 0)).getD j 0) := by
    rw [moveParticle_position, hb]
    show ((List.range ((List.range o.d).map _).length).map _).getD j 0 = _
    rw [getD_map_range]
    simp only [List.length_map, List.length_range]
    rw [if_pos hj]
  rw [hcoord]
  exact clipScalar_mem _ _ _ (hlu j hj)

/-- The box invariant survives any number of loop iterations. -/
theorem runLoop_inBounds {A : Type} (o : Optimizer) (f : A → List (List ℚ) → List Cost)
    (args : A) (lb ub : List ℚ) (hb : o.bounds = some (lb, ub))
    (hlu : ∀ j, j < o.d → lb.getD j 0 ≤ ub.getD j 0) :
    ∀ (t : ℕ) (st st2 : LoopState A), inBounds lb ub o.d st.particles →
    runLoop o f args t st = .ok st2 → inBounds lb ub o.d st2.particles := by
  intro t
  induction t with
  | zero => intro st st2 hin hr; cases hr; exact hin
  | succ t ih =>
    intro st st2 hin hr
    rw [runLoop] at hr
    rcases stepIter_cases o f args st with ⟨_, hs⟩ | ⟨_, hs⟩
    · rw [hs] at hr
      have hr2 : runLoop o f args t
          (stepOk o { st with calls := st.calls ++ [(args, posMatrix st.particles)] }
            (f args (posMatrix st.particles))) = .ok st2 := hr
      refine ih _ _ ?_ hr2
      intro p hp j hj
      obtain ⟨i, _, hpi⟩ := List.mem_map.mp hp
      rw [← hpi]
      exact moveParticle_inBounds o lb ub hb hlu _ i _ _ j hj
    · rw [hs] at hr
      cases hr

/-- C4. The bounds handler maps an out-of-range coordinate to the nearest
bound and keeps in-range coordinates unchanged, is the identity when no
bounds are configured, and along every run with bounds every coordinate of
every particle's position lies inside the box at every iteration. -/
theorem c4_bounds_invariant :
    (∀ lo hi x : ℚ, lo ≤ hi →
      ((x < lo → clipScalar lo hi x = lo) ∧
       (hi < x → clipScalar lo hi x = hi) ∧
       (lo ≤ x → x ≤ hi → clipScalar lo hi x = x))) ∧
    (∀ x : List ℚ, clipVec none x = x) ∧
    (∀ {A : Type} (cfg : PsoConfig) (f : A → List (List ℚ) → List Cost) (args : A)
      (t : ℕ) (o : Optimizer) (lb ub : List ℚ), mkOptimizer cfg = .ok o →
      o.bounds = some (lb, ub) → (statesAfter o f args t).isOk = true →
      ∀ p ∈ (okD (statesAfter o f args t) dfltState).particles, ∀ j, j < o.d →
        lb.getD j 0 ≤ p.position.getD j 0 ∧ p.position.getD j 0 ≤ ub.getD j 0) := by
  refine ⟨?_, ?_, ?_⟩
  · intro lo hi x h
    refine ⟨?_, ?_, ?_⟩
    · intro hx
      rw [clipScalar, min_eq_right (le_trans (le_of_lt hx) h), max_eq_left (le_of_lt hx)]
    · intro hx
      rw [clipScalar, min_eq_left (le_of_lt hx), max_eq_right h]
    · intro hx1 hx2
      rw [clipScalar, min_eq_right hx2, max_eq_right hx1]
  · intro x
    rfl
  · intro A cfg f args t o lb ub hm hb hok
    have hst : statesAfter o f args t = .ok (okD (statesAfter o f args t) dfltState) :=
      okD_isOk _ _ hok
    obtain ⟨_, _, hbo, _⟩ := mkOptimizer_ok hm
    rw [hb] at hbo
    obtain ⟨_, _, hlu⟩ := boundsOk_some hbo
    have hinit : inBounds lb ub o.d (initState o : LoopState A).particles := by
      intro p hp j hj
      obtain ⟨i, _, hpi⟩ := List.mem_map.mp hp
      rw [← hpi]
      exact initParticle_inBounds o lb ub hb hlu i j hj
    exact runLoop_inBounds o f args lb ub hb (fun j hj => le_of_lt (hlu j hj))
      t (initState o) _ hinit hst

/-- Shared concrete fixture: the notebook's bounded configuration, a box
from -2 to 3 in one dimension. -/
def cfgB : PsoConfig :=
  { cfgW with bounds := some ([-2], [3]) }

theorem c4_bounds_invariant_witness :
    ((-2 : ℚ) ≤ 3 ∧ ((4 : ℚ) < -2 → clipScalar (-2) 3 4 = -2)) ∧
    clipVec none [5, 7] = [5, 7] ∧
    (mkOptimizer cfgB = .ok (okD (mkOptimizer cfgB) dfltOptimizer) ∧
      (okD (mkOptimizer cfgB) dfltOptimizer).bounds = some ([-2], [3]) ∧
      (statesAfter (okD (mkOptimizer cfgB) dfltOptimizer) sphObj () 2).isOk = true ∧
      ∀ p ∈ (okD (statesAfter (okD (mkOptimizer cfgB) dfltOptimizer) sphObj () 2)
          dfltState).particles, ∀ j, j < (okD (mkOptimizer cfgB) dfltOptimizer).d →
        ([(-2 : ℚ)].getD j 0 ≤ p.position.getD j 0 ∧
          p.position.getD j 0 ≤ [(3 : ℚ)].getD j 0)) := by
  refine ⟨⟨by norm_num, ?_⟩, ?_, ?_, ?_, ?_, ?_⟩
  · exact ((c4_bounds_invariant.1 (-2) 3 4 (by norm_num)).1)
  · exact c4_bounds_invariant.2.1 [5, 7]
  · with_unfolding_all decide
  · with_unfolding_all decide
  · with_unfolding_all decide
  · exact c4_bounds_invariant.2.2 cfgB sphObj () 2 (okD (mkOptimizer cfgB) dfltOptimizer)
      [-2] [3] (by with_unfolding_all decide) (by with_unfolding_all decide)
      (by with_unfolding_all decide)

/-- Characterization of the best-index scan on a strictly ascending
candidate list: the result is a candidate, no candidate has a strictly
better personal-best cost, and among equal-cost candidates the result has
the lowest index. -/
theorem bestOverAux_spec (ps : List Particle) :
    ∀ (l : List ℕ) (b : ℕ), List.Pairwise (fun a a2 => a < a2) (b :: l) →
    bestOverAux ps b l ∈ b :: l ∧
    (∀ j ∈ b :: l,
      Cost.isLt (pbestCostAt ps j) (pbestCostAt ps (bestOverAux ps b l)) = false) ∧
    (∀ j ∈ b :: l, pbestCostAt ps j = pbestCostAt ps (bestOverAux ps b l) →
      bestOverAux ps b l ≤ j) := by
  intro l
  induction l with
  | nil =>
    intro b _
    refine ⟨List.mem_cons_self b [], ?_, ?_⟩
    · intro j hj
      have hj2 : j = b := by simpa using hj
      subst hj2
      exact Cost.isLt_irrefl _
    · intro j hj _
      have hj2 : j = b := by simpa using hj
      subst hj2
      exact le_refl _
  | cons i l ih =>
    intro b hp
    have hbi : b < i := (List.pairwise_cons.mp hp).1 i (List.mem_cons_self i l)
    have hbl : ∀ x ∈ l, b < x :=
      fun x hx => (List.pairwise_cons.mp hp).1 x (List.mem_cons_of_mem i hx)
    have hil : List.Pairwise (fun a a2 => a < a2) (i :: l) := (List.pairwise_cons.mp hp).2
    have hll : List.Pairwise (fun a a2 => a < a2) l := (List.pairwise_cons.mp hil).2
    have hix : ∀ x ∈ l, i < x := (List.pairwise_cons.mp hil).1
    cases hc : (pbestCostAt ps i).isLt (pbestCostAt ps b) with
    | true =>
      have hstep : bestOverAux ps b (i :: l) = bestOverAux ps i l := by
        rw [bestOverAux, hc]
        rfl
      obtain ⟨hmem, hmin, htie⟩ := ih i hil
      rw [hstep]
      refine ⟨List.mem_cons_of_mem b hmem, ?_, ?_⟩
      · intro j hj
        rcases List.mem_cons.mp hj with hjb | hjil
        · subst hjb
          cases hjr : Cost.isLt (pbestCostAt ps j) (pbestCostAt ps (bestOverAux ps i l)) with
          | false => rfl
          | true =>
            have h2 := Cost.isLt_trans hc hjr
            rw [hmin i (List.mem_cons_self i l)] at h2
            exact Bool.noConfusion h2
        · exact hmin j hjil
      · intro j hj hcost
        rcases List.mem_cons.mp hj with hjb | hjil
        · subst hjb
          rw [hcost] at hc
          rw [hmin i (List.mem_cons_self i l)] at hc
          exact Bool.noConfusion hc
        · exact htie j hjil hcost
    | false =>
      have hstep : bestOverAux ps b (i :: l) = bestOverAux ps b l := by
        rw [bestOverAux, hc]
        rfl
      have hpbl : List.Pairwise (fun a a2 => a < a2) (b :: l) :=
        List.pairwise_cons.mpr ⟨hbl, hll⟩
      obtain ⟨hmem, hmin, htie⟩ := ih b hpbl
      rw [hstep]
      refine ⟨?_, ?_, ?_⟩
      · rcases List.mem_cons.mp hmem with hrb | hrl
        · rw [hrb]
          exact List.mem_cons_self b (i :: l)
        · exact List.mem_cons_of_mem b (List.mem_cons_of_mem i hrl)
      · intro j hj
        rcases List.mem_cons.mp hj with hjb | hjil
        · subst hjb
          exact hmin j (List.mem_cons_self _ _)
        · rcases List.mem_cons.mp hjil with hji | hjl
          · subst hji
            exact Cost.isLt_false_trans hc (hmin b (List.mem_cons_self b l))
          · exact hmin j (List.mem_cons_of_mem b hjl)
      · intro j hj hcost
        rcases List.mem_cons.mp hj with hjb | hjil
        · subst hjb
          exact htie j (List.mem_cons_self _ _) hcost
        · rcases List.mem_cons.mp hjil with hji | hjl
          · subst hji
            rcases List.mem_cons.mp hmem with hrb | hrl
            · rw [hrb]
              exact le_of_lt hbi
            · exfalso
              have hrneb : pbestCostAt ps b ≠ pbestCostAt ps (bestOverAux ps b l) := by
                intro heq
                have h2 := htie b (List.mem_cons_self b l) heq
                have h3 := hbl _ hrl
                omega
              have h4 : Cost.isLt (pbestCostAt ps (bestOverAux ps b l))
                  (pbestCostAt ps b) = true := by
                cases h5 : Cost.isLt (pbestCostAt ps (bestOverAux ps b l))
                    (pbestCostAt ps b) with
                | true => rfl
                | false =>
                  exact absurd (Cost.eq_of_not_lt (hmin b (List.mem_cons_self b l)) h5)
                    hrneb
              rw [← hcost] at h4
              rw [h4] at hc
              exact Bool.noConfusion hc
          · exact htie j (List.mem_cons_of_mem b hjl) hcost

/-- The same characterization for bestOver on a nonempty ascending list. -/
theorem bestOver_spec (ps : List Particle) (l : List ℕ) (hne : l ≠ [])
    (hp : List.Pairwise (fun a a2 => a < a2) l) :
    bestOver ps l ∈ l ∧
    (∀ j ∈ l, Cost.isLt (pbestCostAt ps j) (pbestCostAt ps (bestOver ps l)) = false) ∧
    (∀ j ∈ l, pbestCostAt ps j = pbestCostAt ps (bestOver ps l) → bestOver ps l ≤ j) := by
  cases l with
  | nil => exact absurd rfl hne
  | cons i rest =>
    have h := bestOverAux_spec ps rest i hp
    exact h

/-- No particle is nearer to i than itself in the strict nearness order. -/
theorem ringNearer_irrefl (n i a : ℕ) : ringNearer n i a a = false := by
  simp [ringNearer]

/-- With k = n - 1 every other particle has rank below k: the ring
neighborhood saturates. -/
theorem ringRank_lt (n i j : ℕ) (hn : 2 ≤ n) (hi : i < n) (hj : j < n) (hij : j ≠ i) :
    ringRank n i j < n - 1 := by
  rw [ringRank]
  have hnd : ((List.range n).filter
      (fun j2 => decide (j2 ≠ i) && ringNearer n i j2 j)).Nodup :=
    (List.nodup_range n).filter _
  have hsub : (List.range n).filter (fun j2 => decide (j2 ≠ i) && ringNearer n i j2 j) ⊆
      ((List.range n).erase i).erase j := by
    intro a ha
    rw [List.mem_filter] at ha
    obtain ⟨har, hpred⟩ := ha
    rw [Bool.and_eq_true, decide_eq_true_eq] at hpred
    have haj : a ≠ j := by
      intro heq
      subst heq
      rw [ringNearer_irrefl] at hpred
      exact Bool.noConfusion hpred.2
    rw [List.mem_erase_of_ne haj, List.mem_erase_of_ne hpred.1]
    exact har
  have hlen := (List.subperm_of_subset hnd hsub).length_le
  have hmemj : j ∈ (List.range n).erase i := by
    rw [List.mem_erase_of_ne hij]
    exact List.mem_range.mpr hj
  have hlen2 : (((List.range n).erase i).erase j).length = n - 1 - 1 := by
    rw [List.length_erase_of_mem hmemj, List.length_erase_of_mem (List.mem_range.mpr hi),
      List.length_range]
  omega

/-- Ring degeneracy: with k = n - 1 the neighborhood of every particle is
the whole swarm. -/
theorem ringNeighbors_all (n i : ℕ) (hn : 2 ≤ n) (hi : i < n) :
    ringNeighbors n (n - 1) i = List.range n := by
  rw [ringNeighbors, List.filter_eq_self]
  intro j hj
  rw [List.mem_range] at hj
  by_cases hji : j = i
  · rw [Bool.or_eq_true, decide_eq_true_eq]
    exact .inl hji
  · rw [Bool.or_eq_true, decide_eq_true_eq, decide_eq_true_eq]
    exact .inr (ringRank_lt n i j hn hi hj hji)

/-- C5. With k = n_particles - 1 the ring topology degenerates to the
global one: best_for(i) returns the same (cost, position) pair as the
global best_for for every i, namely the pair of the particle with minimum
personal-best cost over the whole swarm, ties broken by lowest index. -/
theorem c5_ring_degeneracy (ps : List Particle) (i : ℕ) (hn : 2 ≤ ps.length)
    (hi : i < ps.length) :
    bestForPair ps (localBestFor ps (ps.length - 1) i) =
      bestForPair ps (globalBestFor ps) ∧
    localBestFor ps (ps.length - 1) i = globalBestFor ps ∧
    globalBestFor ps < ps.length ∧
    (∀ j, j < ps.length →
      Cost.isLt (pbestCostAt ps j) (pbestCostAt ps (globalBestFor ps)) = false) ∧
    (∀ j, j < ps.length → pbestCostAt ps j = pbestCostAt ps (globalBestFor ps) →
      globalBestFor ps ≤ j) := by
  have heq : localBestFor ps (ps.length - 1) i = globalBestFor ps := by
    rw [localBestFor, ringNeighbors_all ps.length i hn hi]
    rfl
  have hrange_ne : List.range ps.length ≠ [] := by
    intro h
    rw [List.range_eq_nil] at h
    omega
  obtain ⟨hmem, hmin, htie⟩ := bestOver_spec ps (List.range ps.length) hrange_ne
    (List.pairwise_lt_range ps.length)
  refine ⟨by rw [heq], heq, ?_, ?_, ?_⟩
  · exact List.mem_range.mp hmem
  · intro j hj
    exact hmin j (List.mem_range.mpr hj)
  · intro j hj hc
    exact htie j (List.mem_range.mpr hj) hc

/-- Shared concrete fixture: a two-particle swarm whose second particle
holds the better personal best. -/
def psW : List Particle :=
  [⟨[0], [0], [0], Cost.finite 5⟩, ⟨[1], [0], [1], Cost.finite 3⟩]

theorem c5_ring_degeneracy_witness :
    (2 ≤ psW.length ∧ (0 : ℕ) < psW.length) ∧
    bestForPair psW (localBestFor psW (psW.length - 1) 0) =
      bestForPair psW (globalBestFor psW) :=
  ⟨⟨by decide, by decide⟩,
    (c5_ring_degeneracy psW 0 (by decide) (by decide)).1⟩

end PSO
